import Mathlib

/-!
Verification of the lif-viewer parsing core.

A shallow embedding of the file-parsing, time-normalization, assembly,
deduplication and watcher logic of the lif-viewer repository
(`main.go` and its sibling variant), together with theorems settling the
specification claims about that code.

Modelling conventions:

* Go `float64` elapsed-seconds values are idealized as exact rationals.
  Every number flowing through this pipeline is produced by the decimal
  grammar of `strconv.ParseFloat` and scaled by powers of ten, so each
  value is an exact decimal rational `num / 10 ^ exp`.  We compute on
  that representation (`Dec`, kernel-reducible) and state value-level
  facts through `Dec.val : Dec → ℚ`.
* Go strings are Lean `String`s; the byte-level helpers work on
  `List Char`.  `strings.TrimSpace` / `ToUpper` are modelled on the
  character sets the source actually meets (ASCII plus the Latin-1
  spaces recognized by `unicode.IsSpace`).
* `strconv.ParseFloat` is modelled on its plain decimal grammar
  (optional sign, digits with optional fraction, optional decimal
  exponent); the `Inf`/`NaN`/hex/underscore forms never occur in timing
  exports and are out of scope.
* File I/O is abstracted: the record parsers take the already decoded
  and delimiter-split rows (`List (List String)`), the file name and
  the modified time; the watcher step takes the parse outcome of the
  changed file as a parameter.
-/

namespace LifViewer

/-! ## Character and string helpers -/

/-- The whitespace set of Go `unicode.IsSpace` restricted to Latin-1:
`'\t'`, `'\n'`, `'\v'`, `'\f'`, `'\r'`, `' '`, U+0085, U+00A0. -/
def isGoSpace (c : Char) : Bool :=
  c = ' ' ∨ c = '\t' ∨ c = '\n' ∨ c = (Char.ofNat 11) ∨ c = (Char.ofNat 12) ∨
    c = '\r' ∨ c = (Char.ofNat 133) ∨ c = (Char.ofNat 160)

/-- Go `strings.TrimSpace` on the character list: drop leading and trailing
whitespace. -/
def goTrimL (l : List Char) : List Char :=
  ((l.dropWhile isGoSpace).reverse.dropWhile isGoSpace).reverse

/-- Go `strings.TrimSpace`. -/
def goTrim (s : String) : String :=
  String.mk (goTrimL s.data)

/-- Go `strings.ToUpper` (ASCII range, which is all the source compares). -/
def goUpper (s : String) : String :=
  String.mk (s.data.map Char.toUpper)

/-- Split a character list at every occurrence of the separator
character.  This is Go `strings.Split` for a one-character separator:
the result is never empty, and separators are consumed. -/
def splitOnChar (sep : Char) : List Char → List (List Char)
  | [] => [[]]
  | c :: cs =>
    match splitOnChar sep cs with
    | [] => [[]]
    | g :: gs => if c = sep then [] :: g :: gs else (c :: g) :: gs

/-- Split at every character satisfying `p`, keeping (possibly empty)
groups between separators. -/
def splitPred (p : Char → Bool) : List Char → List (List Char)
  | [] => [[]]
  | c :: cs =>
    match splitPred p cs with
    | [] => [[]]
    | g :: gs => if p c then [] :: g :: gs else (c :: g) :: gs

/-- Go `strings.Fields`: the maximal runs of non-whitespace characters. -/
def goFieldsL (l : List Char) : List (List Char) :=
  (splitPred isGoSpace l).filter (fun g => ¬ g.isEmpty)

/-- Go `strings.Fields` on strings. -/
def goFields (s : String) : List String :=
  (goFieldsL s.data).map String.mk

/-- Go `strings.Join` with separator `" "` restricted to what the source
uses (re-joining name parts). -/
def joinSpace : List String → String
  | [] => ""
  | [x] => x
  | x :: y :: r => x ++ " " ++ joinSpace (y :: r)

/-- One step of Go `strings.ReplaceAll pat ""`: `skip` counts pattern
characters still to be consumed after a match was found. -/
def replaceAllAux (pat : List Char) : List Char → Nat → List Char
  | [], _ => []
  | _ :: cs, k + 1 => replaceAllAux pat cs k
  | c :: cs, 0 =>
    if pat ≠ [] ∧ pat.isPrefixOf (c :: cs) then
      replaceAllAux pat cs (pat.length - 1)
    else
      c :: replaceAllAux pat cs 0

/-- Go `strings.ReplaceAll s pat ""`: remove every non-overlapping
leftmost occurrence of `pat`. -/
def replaceAllL (pat l : List Char) : List Char :=
  replaceAllAux pat l 0

/-- Go `strings.Contains` on character lists. -/
def containsL (pat : List Char) : List Char → Bool
  | [] => pat.isEmpty
  | c :: cs => pat.isPrefixOf (c :: cs) || containsL pat cs

/-- Go `strings.Contains`. -/
def goContains (s pat : String) : Bool :=
  containsL pat.data s.data

/-! ## Exact decimal numbers

`Dec` represents the exact value `num / 10 ^ exp`.  Every value produced
by the decimal grammar of `strconv.ParseFloat`, and every intermediate
value of `roundAndFormatTime`, is of this shape, so the pipeline is
computed exactly on `Dec` (the idealization of the source's `float64`). -/

structure Dec where
  num : ℤ
  exp : ℕ
deriving Repr, DecidableEq

/-- The rational value of a decimal. -/
def Dec.val (d : Dec) : ℚ :=
  (d.num : ℚ) / (10 : ℚ) ^ d.exp

/-- Embed an integer. -/
def Dec.ofInt (n : ℤ) : Dec :=
  ⟨n, 0⟩

/-- Exact addition (common power-of-ten denominator). -/
def Dec.add (a b : Dec) : Dec :=
  let e := max a.exp b.exp
  ⟨a.num * 10 ^ (e - a.exp) + b.num * 10 ^ (e - b.exp), e⟩

/-- Exact subtraction. -/
def Dec.sub (a b : Dec) : Dec :=
  let e := max a.exp b.exp
  ⟨a.num * 10 ^ (e - a.exp) - b.num * 10 ^ (e - b.exp), e⟩

/-- Multiplication by an integer constant (the source multiplies by
`3600`, `60` and `100`). -/
def Dec.scale (c : ℤ) (a : Dec) : Dec :=
  ⟨c * a.num, a.exp⟩

/-- Value-level `≤` as a boolean, by cross-multiplication. -/
def Dec.leB (a b : Dec) : Bool :=
  a.num * 10 ^ b.exp ≤ b.num * 10 ^ a.exp

/-- Value-level `<` as a boolean. -/
def Dec.ltB (a b : Dec) : Bool :=
  a.num * 10 ^ b.exp < b.num * 10 ^ a.exp

/-- Go `math.Ceil` on a decimal: `⌈num / 10 ^ exp⌉`, computed with
floor integer division (`Int.ediv` floors for a positive divisor). -/
def Dec.ceilZ (d : Dec) : ℤ :=
  -((-d.num).ediv ((10 : ℤ) ^ d.exp))

/-- Go's `int(x)` conversion on a decimal: truncation toward zero
(`Int.tdiv` truncates). -/
def Dec.trunc (d : Dec) : ℤ :=
  Int.tdiv d.num ((10 : ℤ) ^ d.exp)

/-- Go `math.Round` on a decimal: round half away from zero. -/
def Dec.roundAway (d : Dec) : ℤ :=
  let b : ℤ := (10 : ℤ) ^ d.exp
  if 0 ≤ d.num then (2 * d.num + b).ediv (2 * b)
  else -((2 * (-d.num) + b).ediv (2 * b))

/-! ## `strconv.ParseFloat` (plain decimal grammar) -/

/-- Digit test used by the float grammar. -/
def isDigitChar (c : Char) : Bool :=
  '0' ≤ c ∧ c ≤ '9'

/-- Numeric value of a digit character. -/
def charVal (c : Char) : Nat :=
  c.toNat - 48

/-- Accumulate a digit run most-significant first. -/
def digitsValNat (l : List Char) : Nat :=
  l.foldl (fun a c => 10 * a + charVal c) 0

/-- Strip one optional sign; returns (isNegative, rest). -/
def splitSign (l : List Char) : Bool × List Char :=
  match l with
  | [] => (false, [])
  | c :: r =>
    if c = '-' then (true, r)
    else if c = '+' then (false, r)
    else (false, c :: r)

/-- Go `strconv.ParseFloat` on a character list, idealized to the exact
decimal value: optional sign, integer digits, optional '.' fraction,
optional decimal exponent; at least one mantissa digit; no trailing
characters.  Returns the exact decimal value. -/
def parseFloatChars (l : List Char) : Option Dec :=
  let s := splitSign l
  let neg := s.1
  let l1 := s.2
  let ip := l1.takeWhile isDigitChar
  let l2 := l1.dropWhile isDigitChar
  let fl :=
    match l2 with
    | [] => (([] : List Char), ([] : List Char))
    | c :: r => if c = '.' then (r.takeWhile isDigitChar, r.dropWhile isDigitChar) else ([], c :: r)
  let fp := fl.1
  let l3 := fl.2
  if ip.isEmpty ∧ fp.isEmpty then none
  else
    let mantNum : ℤ := (digitsValNat ip : ℤ) * 10 ^ fp.length + (digitsValNat fp : ℤ)
    let signedNum : ℤ := if neg then -mantNum else mantNum
    match l3 with
    | [] => some ⟨signedNum, fp.length⟩
    | c :: r =>
      if c = 'e' ∨ c = 'E' then
        let s2 := splitSign r
        let ed := s2.2.takeWhile isDigitChar
        let r2 := s2.2.dropWhile isDigitChar
        if ed.isEmpty ∨ ¬ r2.isEmpty then none
        else if s2.1 then some ⟨signedNum, fp.length + digitsValNat ed⟩
        else some ⟨signedNum * 10 ^ digitsValNat ed, fp.length⟩
      else none

/-- Go `strconv.ParseFloat` on strings. -/
def goParseFloat (s : String) : Option Dec :=
  parseFloatChars s.data

/-! ## The time normalizer (`parseTimeString`, `roundAndFormatTime`) -/

/-- The source's `parseTimeString`: trim, split on ':', then
`h*3600 + m*60 + s` / `m*60 + s` / `s` according to the number of
parts; any part failing the float parse, or more than three parts,
fails. -/
def parseTimeString (raw : String) : Option Dec :=
  let parts := splitOnChar ':' (goTrimL raw.data)
  match parts with
  | [h, m, s] =>
    match parseFloatChars h, parseFloatChars m, parseFloatChars s with
    | some hq, some mq, some sq =>
      some (Dec.add (Dec.scale 3600 hq) (Dec.add (Dec.scale 60 mq) sq))
    | _, _, _ => none
  | [m, s] =>
    match parseFloatChars m, parseFloatChars s with
    | some mq, some sq => some (Dec.add (Dec.scale 60 mq) sq)
    | _, _ => none
  | [s] => parseFloatChars s
  | _ => none

/-- Decimal digit list of a natural number, most-significant first,
computed with explicit fuel so that it is structurally recursive
(`[]` for `0`; the caller pads). -/
def natDigitsFuel : Nat → Nat → List Nat
  | 0, _ => []
  | f + 1, n => if n = 0 then [] else natDigitsFuel f (n / 10) ++ [n % 10]

/-- The character of a decimal digit. -/
def digitChar (d : Nat) : Char :=
  Char.ofNat (48 + d)

/-- Decimal digit character list of a natural number (`"0"` for zero),
as produced by Go `%d` on a non-negative value. -/
def natReprL (n : Nat) : List Char :=
  if n = 0 then ['0']
  else (natDigitsFuel n n).map digitChar

/-- Go `%d` on an integer. -/
def intReprL (i : ℤ) : List Char :=
  if i < 0 then '-' :: natReprL i.natAbs else natReprL i.natAbs

/-- Go `%02d` on an integer: zero-pad the digits (after any sign) so the
total width is at least 2. -/
def pad2L (i : ℤ) : List Char :=
  if i < 0 then '-' :: natReprL i.natAbs
  else if i.natAbs < 10 then '0' :: natReprL i.natAbs
  else natReprL i.natAbs

/-- The hour/minute/second/hundredth decomposition computed by
`roundAndFormatTime`. -/
structure TimeParts where
  hours : ℤ
  minutes : ℤ
  seconds : ℤ
  hundredths : ℤ
deriving Repr, DecidableEq

/-- The arithmetic of `roundAndFormatTime` (source lines 346-363):
`rounded := math.Ceil(total*100) / 100`, truncate to `int`, split into
hours/minutes/seconds with Go's truncated division and remainder,
recover the hundredths from the fraction with `math.Round`, and carry a
hundredths value of 100 into seconds, minutes and hours. -/
def formatParts (total : Dec) : TimeParts :=
  let c : ℤ := Dec.ceilZ (Dec.scale 100 total)
  let rounded : Dec := ⟨c, 2⟩
  let ri : ℤ := rounded.trunc
  let hours := Int.tdiv ri 3600
  let minutes := Int.tdiv (Int.tmod ri 3600) 60
  let seconds := Int.tmod ri 60
  let fraction : Dec := Dec.sub rounded (Dec.ofInt ri)
  let hundredths : ℤ := (Dec.scale 100 fraction).roundAway
  if hundredths = 100 then
    let seconds' := seconds + 1
    if seconds' ≥ 60 then
      let minutes' := minutes + 1
      if minutes' ≥ 60 then
        ⟨hours + 1, 0, 0, 0⟩
      else
        ⟨hours, minutes', 0, 0⟩
    else
      ⟨hours, minutes, seconds', 0⟩
  else
    ⟨hours, minutes, seconds, hundredths⟩

/-- The three rendering shapes of `roundAndFormatTime`
(`h:mm:ss.xx`, `m:ss.xx`, `s.xx`). -/
def renderParts (p : TimeParts) : List Char :=
  if 0 < p.hours then
    intReprL p.hours ++ ':' :: (pad2L p.minutes ++ ':' ::
      (pad2L p.seconds ++ '.' :: pad2L p.hundredths))
  else if 0 < p.minutes then
    intReprL p.minutes ++ ':' :: (pad2L p.seconds ++ '.' :: pad2L p.hundredths)
  else
    intReprL p.seconds ++ '.' :: pad2L p.hundredths

/-- Formatting of an already parsed total. -/
def formatTotal (total : Dec) : String :=
  String.mk (renderParts (formatParts total))

/-- The source's `roundAndFormatTime`: parse, ceiling-round to the
hundredth, decompose with carries, render by magnitude. -/
def roundAndFormatTime (raw : String) : Option String :=
  (parseTimeString raw).map formatTotal

/-- The source's `cleanTimeString`: drop control characters
(code points below 32) and the byte-order mark U+FEFF. -/
def cleanTimeString (s : String) : String :=
  String.mk (s.data.filter (fun c => ¬ (c.toNat < 32 ∨ c.toNat = 65279)))

/-! ## Data model -/

/-- One athlete's result row (`Competitor` in the source). -/
structure Competitor where
  place : String
  id : String
  firstName : String
  lastName : String
  affiliation : String
  time : String
deriving Repr, DecidableEq

/-- One parsed file (`LifData` in the source). -/
structure LifData where
  fileName : String
  eventName : String
  wind : String
  competitors : List Competitor
  modifiedTime : ℤ
deriving Repr, DecidableEq

/-- File-scoped parse failures of the record parsers. -/
inductive ParseError where
  | noRecords
  | insufficientRecords
  | noValidRecords
deriving Repr, DecidableEq

/-! ## Wind cleanup -/

/-- The literal `"Manual"`. -/
def manualPatU : List Char := ['M', 'a', 'n', 'u', 'a', 'l']

/-- The literal `"manual"`. -/
def manualPatL : List Char := ['m', 'a', 'n', 'u', 'a', 'l']

/-- The shared cleanup chain on an already trimmed wind value: remove
`"Manual"`, `"manual"`, `'('`, `')'`, then trim again. -/
def cleanWindL (l : List Char) : List Char :=
  goTrimL (replaceAllL [')'] (replaceAllL ['('] (replaceAllL manualPatL (replaceAllL manualPatU l))))

/-- Wind handling of `parseLifFile` (source lines 613-626): trim; if
non-empty, clean; if the cleaned value is non-empty, append `" m/s"`
unconditionally. -/
def lifWindOfField (w : String) : String :=
  let windVal := goTrim w
  if windVal = "" then ""
  else
    let w2 := String.mk (cleanWindL windVal.data)
    if w2 = "" then "" else w2 ++ " m/s"

/-- Wind handling of `parseResFile` (sibling source lines 520-544):
trim; for the `.txt` variant an `"N/A"`-shaped value (case-insensitive)
means no wind; otherwise clean, treat empty or `"0"` as no wind, and
append `" m/s"` unless the value already contains it. -/
def resWindOfField (isTxt : Bool) (w : String) : String :=
  let windVal := goTrim w
  if windVal = "" then ""
  else if isTxt ∧ (goUpper windVal = "N/A" ∨ goUpper windVal = "N/A M/S") then ""
  else
    let w2 := String.mk (cleanWindL windVal.data)
    if w2 ≠ "" ∧ w2 ≠ "0" then
      if goContains w2 ("m/s") then w2 else w2 ++ " m/s"
    else ""

/-! ## Row parsing -/

/-- One pass of the `.txt` id cleanup loop: drop the first
parenthesized group; with no closing parenthesis, keep the trimmed
text before `'('` and stop.  Each pass removes at least two
characters, so fuel equal to the length never runs out. -/
def stripBracketsFuel : Nat → List Char → List Char
  | 0, l => l
  | f + 1, l =>
    let pre := l.takeWhile (fun c => ¬ c = '(')
    let rest := l.dropWhile (fun c => ¬ c = '(')
    match rest with
    | [] => l
    | _ :: r =>
      let rest2 := r.dropWhile (fun c => ¬ c = ')')
      match rest2 with
      | [] => goTrimL pre
      | _ :: post => stripBracketsFuel f (goTrimL (pre ++ post))

/-- The `.txt` id cleanup (sibling source lines 578-594). -/
def stripBracketsL (l : List Char) : List Char :=
  stripBracketsFuel l.length l

/-- The combined-name split of `parseResFile`: first whitespace token
is the first name, the rest re-joined is the last name; a single token
is a last name only. -/
def splitName (name : String) : String × String :=
  if name = "" then ("", "")
  else
    match goFields name with
    | [] => ("", "")
    | [single] => ("", single)
    | first :: restParts => (first, joinSpace restParts)

/-- The per-row logic of `parseLifFile` (source lines 628-674): a row
needs at least 7 fields; empty or `DNS` places are skipped; `DQ`/`DNF`
in place or time yields a marker entry with an empty place (DQ wins);
otherwise the time is formatted, a formatting failure skipping the
row.  Fields: place, id, (unused), lastName, firstName, affiliation,
time. -/
def parseLifRow (row : List String) : Option Competitor :=
  if row.length < 7 then none
  else
    let place := goTrim (row.getD 0 "")
    if place = "" ∨ goUpper place = "DNS" then none
    else
      let rawTime := cleanTimeString (goTrim (row.getD 6 ""))
      let upperPlace := goUpper (goTrim place)
      let upperTime := goUpper rawTime
      if upperPlace = "DQ" ∨ upperPlace = "DNF" ∨ upperTime = "DQ" ∨ upperTime = "DNF" then
        some
          { place := ""
            id := goTrim (row.getD 1 "")
            firstName := goTrim (row.getD 4 "")
            lastName := goTrim (row.getD 3 "")
            affiliation := goTrim (row.getD 5 "")
            time := if upperPlace = "DQ" ∨ upperTime = "DQ" then "DQ" else "DNF" }
      else
        match roundAndFormatTime rawTime with
        | none => none
        | some ft =>
          some
            { place := place
              id := goTrim (row.getD 1 "")
              firstName := goTrim (row.getD 4 "")
              lastName := goTrim (row.getD 3 "")
              affiliation := goTrim (row.getD 5 "")
              time := ft }

/-- The per-row logic of `parseResFile` (sibling source lines
551-661): a row needs at least 3 fields (place, lane, time); empty or
`DNS` places are skipped; optional id/name/affiliation live in fields
3-5 (`.txt` strips bracketed groups from the id and suppresses the
affiliation); `DQ`/`DNF` rows become marker entries with empty place
(DQ wins); otherwise an empty time skips the row, and the time is
formatted, a formatting failure skipping the row. -/
def parseResRow (isTxt : Bool) (row : List String) : Option Competitor :=
  if row.length < 3 then none
  else
    let place := goTrim (row.getD 0 "")
    if place = "" ∨ goUpper place = "DNS" then none
    else
      let rawTime := if 2 < row.length then cleanTimeString (goTrim (row.getD 2 "")) else ""
      let id :=
        if 3 < row.length then
          let i := goTrim (row.getD 3 "")
          if isTxt then String.mk (stripBracketsL i.data) else i
        else ""
      let name := if 4 < row.length then goTrim (row.getD 4 "") else ""
      let names := splitName name
      let affiliation :=
        if 5 < row.length then
          if isTxt then "" else goTrim (row.getD 5 "")
        else ""
      let upperPlace := goUpper (goTrim place)
      let upperTime := goUpper rawTime
      if upperPlace = "DQ" ∨ upperPlace = "DNF" ∨ upperTime = "DQ" ∨ upperTime = "DNF" then
        some
          { place := ""
            id := id
            firstName := names.1
            lastName := names.2
            affiliation := affiliation
            time := if upperPlace = "DQ" ∨ upperTime = "DQ" then "DQ" else "DNF" }
      else if rawTime = "" then none
      else
        match roundAndFormatTime rawTime with
        | none => none
        | some ft =>
          some
            { place := place
              id := id
              firstName := names.1
              lastName := names.2
              affiliation := affiliation
              time := ft }

/-! ## The result assembler -/

/-- Whether an entry carries a non-finishing marker instead of a time. -/
def isMarkerB (c : Competitor) : Bool :=
  c.time == "DQ" || c.time == "DNF"

/-- The sort key: re-parse the formatted time, `0` on failure (Go
discards the error and uses the zero value). -/
def timeVal (c : Competitor) : Dec :=
  (parseTimeString c.time).getD ⟨0, 0⟩

/-- The comparison used for the timed group (value-level `≤` on the
re-parsed elapsed seconds). -/
def timeLE (a b : Competitor) : Prop :=
  Dec.leB (timeVal a) (timeVal b) = true

instance : DecidableRel timeLE := fun a b => by
  unfold timeLE; infer_instance

instance : IsTotal Competitor timeLE :=
  ⟨fun a b => by
    unfold timeLE Dec.leB
    rw [decide_eq_true_iff, decide_eq_true_iff]
    exact le_total _ _⟩

instance : IsTrans Competitor timeLE :=
  ⟨fun a b c hab hbc => by
    unfold timeLE Dec.leB at hab hbc ⊢
    rw [decide_eq_true_iff] at hab hbc ⊢
    have pa : (0 : ℤ) < 10 ^ (timeVal a).exp := pow_pos (by norm_num) _
    have pb : (0 : ℤ) < 10 ^ (timeVal b).exp := pow_pos (by norm_num) _
    have pc : (0 : ℤ) < 10 ^ (timeVal c).exp := pow_pos (by norm_num) _
    have h1 := mul_le_mul_of_nonneg_right hab (le_of_lt pc)
    have h2 := mul_le_mul_of_nonneg_right hbc (le_of_lt pa)
    have h3 : (timeVal a).num * 10 ^ (timeVal c).exp * 10 ^ (timeVal b).exp ≤
        (timeVal c).num * 10 ^ (timeVal a).exp * 10 ^ (timeVal b).exp := by
      nlinarith
    exact le_of_mul_le_mul_right h3 pb⟩

/-- The assembly step shared by all parsers (source lines 679-695 and
siblings): split into timed and `DQ`/`DNF` entries preserving order,
sort the timed group ascending by re-parsed elapsed seconds, and
append the markers.  Go's `sort.Slice` is an unspecified sorted
permutation; it is modelled by insertion sort. -/
def assembleCompetitors (l : List Competitor) : List Competitor :=
  let timed := l.filter (fun c => !(isMarkerB c))
  let untimed := l.filter isMarkerB
  (timed.insertionSort timeLE) ++ untimed

/-! ## Record parsers

File access, charset decoding and CSV/TSV tokenization are abstracted:
the parsers receive the decoded, delimiter-split rows together with
the file name and modified time that the source reads from the file
system. -/

/-- The raw competitor list of `parseLifFile`: every record after the
event row, through the row parser. -/
def lifCompetitors (records : List (List String)) : List Competitor :=
  (records.drop 1).filterMap parseLifRow

/-- The source's `parseLifFile` (lines 582-709) on decoded records. -/
def parseLifRecords (fileName : String) (modifiedTime : ℤ)
    (records : List (List String)) : Except ParseError LifData :=
  if records.length < 1 then .error .noRecords
  else
    let eventRow := records.headD []
    let eventName := if 4 ≤ eventRow.length then eventRow.getD 3 "" else ""
    let wind := if 5 ≤ eventRow.length then lifWindOfField (eventRow.getD 4 "") else ""
    let competitors := lifCompetitors records
    if competitors.isEmpty then .error .noValidRecords
    else
      .ok
        { fileName := fileName
          eventName := eventName
          wind := wind
          competitors := assembleCompetitors competitors
          modifiedTime := modifiedTime }

/-- Strip the last-dot extension from a file name
(`strings.TrimSuffix(filename, filepath.Ext(filename))`). -/
def trimExtension (s : String) : String :=
  if s.data.any (fun c => c = '.') then
    String.mk (((s.data.reverse.dropWhile (fun c => ¬ c = '.')).drop 1).reverse)
  else s

/-- The `"# Event:"` marker of the tab formats. -/
def eventTag : String := "# Event:"

/-- The event-name override of `parseResFile`: the text after
`"# Event:"` in the first field of a row that starts with it. -/
def rowEventTag (row : List String) : Option String :=
  match row with
  | [] => none
  | f :: _ =>
    let ff := goTrim f
    if eventTag.data.isPrefixOf ff.data then
      some (goTrim (String.mk (ff.data.drop eventTag.data.length)))
    else none

/-- The event name of `parseResFile`: the filename in the image-info
row without its extension, overridden by the first `"# Event:"` row. -/
def resEventName (records : List (List String)) : String :=
  let base :=
    match records.headD [] with
    | [] => ""
    | f0 :: _ => trimExtension (goTrim f0)
  (records.findSome? rowEventTag).getD base

/-- The raw competitor list of `parseResFile`: every record after the
image-info and header rows, through the row parser. -/
def resCompetitors (isTxt : Bool) (records : List (List String)) : List Competitor :=
  (records.drop 2).filterMap (parseResRow isTxt)

/-- The sibling source's `parseResFile` (lines 468-697) on decoded records;
`isTxt` selects the restricted `.txt` sub-variant. -/
def parseResRecords (isTxt : Bool) (fileName : String) (modifiedTime : ℤ)
    (records : List (List String)) : Except ParseError LifData :=
  if records.length < 3 then .error .insufficientRecords
  else
    let imageInfoRow := records.headD []
    let eventName := resEventName records
    let wind :=
      if 1 < imageInfoRow.length then resWindOfField isTxt (imageInfoRow.getD 1 "") else ""
    let competitors := resCompetitors isTxt records
    if competitors.isEmpty then .error .noValidRecords
    else
      .ok
        { fileName := fileName
          eventName := eventName
          wind := wind
          competitors := assembleCompetitors competitors
          modifiedTime := modifiedTime }

/-! ## Directory scan deduplication (`GetAllLIFData`) -/

/-- The composition key of a parsed result: the concatenated
`firstName|lastName|time;` of its competitors in order. -/
def compositionKey (d : LifData) : String :=
  d.competitors.foldl (fun acc c => acc ++ c.firstName ++ "|" ++ c.lastName ++ "|" ++ c.time ++ ";") ""

/-- One step of the dedup pass: on a seen key replace the stored entry
only when the new one is strictly newer; otherwise record the new
key.  Go's map is modelled as an association list in first-seen
order. -/
def dedupInsert (seen : List (String × LifData)) (r : LifData) : List (String × LifData) :=
  let k := compositionKey r
  if (seen.lookup k).isSome then
    seen.map (fun p => if p.1 = k ∧ p.2.modifiedTime < r.modifiedTime then (k, r) else p)
  else seen ++ [(k, r)]

/-- The post-processing of `GetAllLIFData` (sibling source lines
302-334): deduplicate the parsed results by composition key, keeping
the newest per key, then order by modified time ascending.  Directory
enumeration and per-file parsing are abstracted into the input
list; Go's unspecified map iteration order feeds a sort, so only the
set of survivors matters. -/
def scanResults (results : List LifData) : List LifData :=
  ((results.foldl dedupInsert []).map Prod.snd).insertionSort
    (fun a b => a.modifiedTime ≤ b.modifiedTime)

/-! ## The live watcher step -/

/-- Filesystem event kinds distinguished by the watcher. -/
inductive FileOp where
  | create
  | write
  | chmod
  | remove
  | rename
deriving Repr, DecidableEq

/-- Go `filepath.Ext`: the suffix starting at the final dot, empty
without one. -/
def goExt (s : String) : String :=
  if s.data.any (fun c => c = '.') then
    String.mk ('.' :: (s.data.reverse.takeWhile (fun c => ¬ c = '.')).reverse)
  else ""

/-- Go `strings.ToLower` (ASCII range). -/
def goLower (s : String) : String :=
  String.mk (s.data.map Char.toLower)

/-- One iteration of the `watchDirectory` event loop (sibling source
lines 247-274) on the published-state slot: recognized extension and a
create-or-write event trigger a reparse whose success replaces the
slot and whose failure leaves it untouched; everything else is
ignored.  The file parse outcome is passed in, parsing being file
I/O. -/
def watchStep (latest : Option LifData) (eventName : String) (op : FileOp)
    (parsed : Except ParseError LifData) : Option LifData :=
  let ext := goLower (goExt eventName)
  if (ext = ".lif" ∨ ext = ".res" ∨ ext = ".txt") ∧ (op = .write ∨ op = .create) then
    match parsed with
    | .error _ => latest
    | .ok d => some d
  else latest

/-! ## Specification-stated rules used for comparison -/

/-- The wind rule exactly as the specification words it for every
parser: trim, remove `"Manual"`/`"manual"` and parentheses; an empty
or `"0"` cleaned value means no wind; otherwise append `" m/s"` unless
the value already contains it. -/
def claimWindRule (w : String) : String :=
  let c := String.mk (cleanWindL (goTrimL w.data))
  if c = "" ∨ c = "0" then ""
  else if goContains c ("m/s") then c else c ++ " m/s"

/-- A rational rounded up (ceiling) to the nearest hundredth, as the
specification words it. -/
def ceilHundredth (q : ℚ) : ℚ :=
  (⌈q * 100⌉ : ℚ) / 100

/-- The trimmed place field of a row. -/
def placeField (row : List String) : String :=
  goTrim (row.getD 0 "")

/-- The cleaned time field of a comma-format row (field 6). -/
def lifTimeField (row : List String) : String :=
  cleanTimeString (goTrim (row.getD 6 ""))

/-- The cleaned time field of a tab-format row (field 2). -/
def resTimeField (row : List String) : String :=
  if 2 < row.length then cleanTimeString (goTrim (row.getD 2 "")) else ""

/-- The branch condition of the DQ/DNF handling: place or time reads
`DQ` or `DNF` case-insensitively. -/
def isDQDNF (place time : String) : Prop :=
  goUpper (goTrim place) = "DQ" ∨ goUpper (goTrim place) = "DNF"
    ∨ goUpper time = "DQ" ∨ goUpper time = "DNF"

instance (place time : String) : Decidable (isDQDNF place time) := by
  unfold isDQDNF
  infer_instance

/-- The canonical marker emitted for such a row: `DQ` wins over
`DNF`. -/
def markerOf (place time : String) : String :=
  if goUpper (goTrim place) = "DQ" ∨ goUpper time = "DQ" then "DQ" else "DNF"

/-- The witness file for C1: an event row followed by three competitor
rows whose times arrive out of order, with a DQ in the middle. -/
def wRecs : List (List String) :=
  [["hdr", "x", "x", "100m Final", "+1.2"],
    ["1", "101", "50.0", "Smith", "John", "ClubA", "11.23"],
    ["DQ", "102", "DQ", "Jones", "Ann", "ClubB", "10.5"],
    ["2", "103", "9.5", "Brown", "Ben", "ClubC", "10.5"]]

/-- The parse of `wRecs` as a comma-format file. -/
def wLif : LifData :=
  { fileName := "a.lif"
    eventName := "100m Final"
    wind := "+1.2 m/s"
    competitors :=
      [(⟨"2", "103", "Ben", "Brown", "ClubC", "10.50"⟩ : Competitor),
        (⟨"1", "101", "John", "Smith", "ClubA", "11.23"⟩ : Competitor),
        (⟨"", "102", "Ann", "Jones", "ClubB", "DQ"⟩ : Competitor)]
    modifiedTime := 5 }

/-- The invariant of the dedup fold: `seen` maps composition keys to
entries consistently, one entry per key, every key of the processed
prefix is present, and each stored entry is a processed result of
maximal modified time for its key. -/
def DedupInv (seen : List (String × LifData)) (processed : List LifData) : Prop :=
  (∀ p ∈ seen, p.1 = compositionKey p.2)
  ∧ (seen.map Prod.fst).Nodup
  ∧ (∀ k, (∃ r ∈ processed, compositionKey r = k) ↔ k ∈ seen.map Prod.fst)
  ∧ (∀ p ∈ seen, p.2 ∈ processed
      ∧ ∀ r ∈ processed, compositionKey r = p.1 → r.modifiedTime ≤ p.2.modifiedTime)

/-- A duplicated result pair for the C7 witness: identical competitor
compositions, different modified times. -/
def wDup1 : LifData :=
  ⟨"a.lif", "E", "", [⟨"1", "7", "Jo", "Doe", "KP", "9.50"⟩], 5⟩

/-- The newer duplicate. -/
def wDup2 : LifData :=
  ⟨"b.lif", "E", "", [⟨"1", "7", "Jo", "Doe", "KP", "9.50"⟩], 9⟩

/-! ## Claim C9: a failed reparse never touches the published state -/

/-- C9: in the watcher loop, a parse failure of the changed file
leaves the published latest-result slot exactly as it was; only a
successful parse replaces it. -/
theorem C9_watch_parse_failure_preserves_state
    (latest : Option LifData) (eventName : String) (op : FileOp) (e : ParseError) :
    watchStep latest eventName op (.error e) = latest := by
  unfold watchStep
  split
  · simp
  · next heq => exact Except.noConfusion heq

/-! ## Claim C5: non-starters are never emitted -/

/-- C5: a source row whose place field is empty or reads `DNS`
(case-insensitively) is emitted by none of the row parsers — neither
the comma format nor the tab format in either sub-variant. -/
theorem C5_dns_rows_never_emitted (row : List String) (isTxt : Bool)
    (h : goTrim (row.getD 0 "") = "" ∨ goUpper (goTrim (row.getD 0 "")) = "DNS") :
    parseLifRow row = none ∧ parseResRow isTxt row = none := by
  simp only [List.getD_eq_getElem?_getD] at h
  rcases h with h | h <;>
    exact ⟨by simp [parseLifRow, List.getD_eq_getElem?_getD, h],
      by simp [parseResRow, List.getD_eq_getElem?_getD, h]⟩

/-- Witness for C5 at the concrete row `["DNS", "5", "9.1"]`. -/
theorem C5_dns_rows_never_emitted_witness :
    parseLifRow (["DNS", "5", "9.1"]) = none ∧ parseResRow false (["DNS", "5", "9.1"]) = none :=
  C5_dns_rows_never_emitted (["DNS", "5", "9.1"]) false (Or.inr (by decide))

/-! ## Claim C8: zero competitors is a hard parse failure -/

/-- C8: when the row rules leave a file with zero competitors, both
record parsers fail with the no-valid-records error instead of
returning an empty success. -/
theorem C8_empty_competitors_is_error (fileName : String) (modifiedTime : ℤ)
    (records : List (List String)) (isTxt : Bool) :
    (¬ records.length < 1 → lifCompetitors records = [] →
      parseLifRecords fileName modifiedTime records = .error .noValidRecords)
    ∧ (¬ records.length < 3 → resCompetitors isTxt records = [] →
      parseResRecords isTxt fileName modifiedTime records = .error .noValidRecords) := by
  constructor
  · intro h1 h2
    simp [parseLifRecords, h1, h2]
  · intro h1 h2
    simp [parseResRecords, h1, h2]

/-- Witness for C8: three rows, none of which yields a competitor. -/
theorem C8_empty_competitors_is_error_witness :
    parseLifRecords ("f") 0 ([["h"], ["x"], ["y"]]) = .error .noValidRecords
    ∧ parseResRecords false ("f") 0 ([["h"], ["x"], ["y"]]) = .error .noValidRecords :=
  ⟨(C8_empty_competitors_is_error ("f") 0 ([["h"], ["x"], ["y"]]) false).1
      (by decide) (by decide),
    (C8_empty_competitors_is_error ("f") 0 ([["h"], ["x"], ["y"]]) false).2
      (by decide) (by decide)⟩

/-! ## Claim C3: the wind cleanup rule -/

theorem mk_data (l : List Char) : (String.mk l).data = l := rfl

theorem goTrim_empty_data {w : String} (h : goTrim w = "") : goTrimL w.data = [] := by
  have := congrArg String.data h
  simpa [goTrim] using this

theorem cleanWindL_nil : cleanWindL [] = [] := rfl

theorem mk_nil : String.mk [] = "" := rfl

/-- The `.txt` variant is the `.res` variant behind an extra
`"N/A"` filter. -/
theorem resWind_txt_split (w : String) :
    resWindOfField true w =
      (if goUpper (goTrim w) = "N/A" ∨ goUpper (goTrim w) = "N/A M/S" then ""
        else resWindOfField false w) := by
  unfold resWindOfField
  by_cases h : goTrim w = ""
  · simp [h]
  · simp [h]

/-- The `.res` wind handling is exactly the rule the specification
words (for every parser). -/
theorem resWind_eq_claimRule (w : String) :
    resWindOfField false w = claimWindRule w := by
  unfold resWindOfField claimWindRule
  by_cases h : goTrim w = ""
  · have h2 : goTrimL w.data = [] := goTrim_empty_data h
    simp [h, h2, cleanWindL_nil, mk_nil]
  · have hd : (goTrim w).data = goTrimL w.data := rfl
    simp only [h, hd, false_and, if_false, ite_false, eq_self_iff_true]
    generalize String.mk (cleanWindL (goTrimL w.data)) = c
    by_cases h1 : c = "" <;> by_cases h2 : c = "0" <;> simp [h1, h2]

/-- C3 (amended): the fully-specified wind rule (empty or `"0"`
cleaned value means no wind, `" m/s"` appended unless present) is the
`.res` tab-format behavior; the `.txt` sub-variant additionally maps
`"N/A"`-shaped raw values (case-insensitive) to no wind; and the comma
`.lif` format deviates — it appends `" m/s"` to every non-empty
cleaned value, with neither the `"0"` exception nor the
duplicate-suffix check. -/
theorem C3_wind_cleanup_by_format (w : String) :
    resWindOfField false w = claimWindRule w
    ∧ lifWindOfField w =
        (if String.mk (cleanWindL (goTrimL w.data)) = "" then ""
          else String.mk (cleanWindL (goTrimL w.data)) ++ " m/s")
    ∧ resWindOfField true w =
        (if goUpper (goTrim w) = "N/A" ∨ goUpper (goTrim w) = "N/A M/S" then ""
          else claimWindRule w) := by
  refine ⟨resWind_eq_claimRule w, ?_, ?_⟩
  · unfold lifWindOfField
    by_cases h : goTrim w = ""
    · have h2 : goTrimL w.data = [] := goTrim_empty_data h
      simp [h, h2, cleanWindL_nil, mk_nil]
    · have hd : (goTrim w).data = goTrimL w.data := rfl
      simp only [h, hd, if_false, ite_false]
  · rw [resWind_txt_split w, resWind_eq_claimRule w]

/-- Counterexample to C3 as stated: the `.lif` parser turns a raw wind
field of `"0"` into `"0 m/s"` and `"1.2 m/s"` into `"1.2 m/s m/s"`,
while the claimed shared rule produces `""` and `"1.2 m/s"`; the
deviation is reachable from the parser itself. -/
theorem C3_wind_cleanup_counterexample :
    lifWindOfField ("0") = "0 m/s"
    ∧ claimWindRule ("0") = ""
    ∧ lifWindOfField ("1.2 m/s") = "1.2 m/s m/s"
    ∧ claimWindRule ("1.2 m/s") = "1.2 m/s"
    ∧ (parseLifRecords ("f") 0
        ([["h", "x", "x", "60m", "0"], ["1", "7", "x", "Doe", "Jo", "KP", "9.5"]])).toOption.map
          LifData.wind = some ("0 m/s") := by
  decide

/-! ## Claim C4: DQ/DNF rows -/

/-- Every rendering shape of `roundAndFormatTime` contains a dot. -/
theorem dot_mem_renderParts (p : TimeParts) : '.' ∈ renderParts p := by
  unfold renderParts
  split_ifs <;> simp

/-- A formatted time is never one of the marker strings. -/
theorem roundAndFormat_ne_marker {raw ft : String} (h : roundAndFormatTime raw = some ft) :
    ft ≠ "DQ" ∧ ft ≠ "DNF" := by
  unfold roundAndFormatTime at h
  cases hp : parseTimeString raw with
  | none =>
    rw [hp] at h
    exact Option.noConfusion h
  | some t =>
    rw [hp] at h
    injection h with h
    have hd : '.' ∈ ft.data := by
      rw [← h]
      exact dot_mem_renderParts _
    constructor <;> intro he <;> rw [he] at hd <;> exact absurd hd (by decide)

/-- C4: in both row parsers, a row whose place or time field reads
`DQ`/`DNF` (case-insensitively) is emitted with an empty place and the
canonical marker as its time, `DQ` taking precedence over `DNF`; and
every emitted competitor whose time is `DQ` or `DNF` has an empty
place. -/
theorem C4_marker_rows (row : List String) (isTxt : Bool) (c : Competitor) :
    (parseLifRow row = some c →
      ((isDQDNF (placeField row) (lifTimeField row) →
        c.place = "" ∧ c.time = markerOf (placeField row) (lifTimeField row))
      ∧ ((c.time = "DQ" ∨ c.time = "DNF") → c.place = "")))
    ∧ (parseResRow isTxt row = some c →
      ((isDQDNF (placeField row) (resTimeField row) →
        c.place = "" ∧ c.time = markerOf (placeField row) (resTimeField row))
      ∧ ((c.time = "DQ" ∨ c.time = "DNF") → c.place = ""))) := by
  unfold placeField lifTimeField resTimeField isDQDNF markerOf
  constructor
  · intro hsome
    unfold parseLifRow at hsome
    by_cases h7 : row.length < 7
    · rw [if_pos h7] at hsome
      exact Option.noConfusion hsome
    · rw [if_neg h7] at hsome
      by_cases hpl : goTrim (row.getD 0 "") = "" ∨ goUpper (goTrim (row.getD 0 "")) = "DNS"
      · rw [if_pos hpl] at hsome
        exact Option.noConfusion hsome
      · rw [if_neg hpl] at hsome
        by_cases hm : goUpper (goTrim (goTrim (row.getD 0 ""))) = "DQ"
            ∨ goUpper (goTrim (goTrim (row.getD 0 ""))) = "DNF"
            ∨ goUpper (cleanTimeString (goTrim (row.getD 6 ""))) = "DQ"
            ∨ goUpper (cleanTimeString (goTrim (row.getD 6 ""))) = "DNF"
        · rw [if_pos hm] at hsome
          injection hsome with h
          subst h
          exact ⟨fun _ => ⟨rfl, rfl⟩, fun _ => rfl⟩
        · rw [if_neg hm] at hsome
          cases hft : roundAndFormatTime (cleanTimeString (goTrim (row.getD 6 ""))) with
          | none =>
            rw [hft] at hsome
            exact Option.noConfusion hsome
          | some ft =>
            rw [hft] at hsome
            injection hsome with h
            subst h
            refine ⟨fun hmk => absurd hmk hm, fun htime => ?_⟩
            rcases roundAndFormat_ne_marker hft with ⟨h1, h2⟩
            rcases htime with ht | ht
            · exact absurd ht h1
            · exact absurd ht h2
  · intro hsome
    unfold parseResRow at hsome
    by_cases h3 : row.length < 3
    · rw [if_pos h3] at hsome
      exact Option.noConfusion hsome
    · rw [if_neg h3] at hsome
      by_cases hpl : goTrim (row.getD 0 "") = "" ∨ goUpper (goTrim (row.getD 0 "")) = "DNS"
      · rw [if_pos hpl] at hsome
        exact Option.noConfusion hsome
      · rw [if_neg hpl] at hsome
        by_cases hm : goUpper (goTrim (goTrim (row.getD 0 ""))) = "DQ"
            ∨ goUpper (goTrim (goTrim (row.getD 0 ""))) = "DNF"
            ∨ goUpper (if 2 < row.length then cleanTimeString (goTrim (row.getD 2 "")) else "") = "DQ"
            ∨ goUpper (if 2 < row.length then cleanTimeString (goTrim (row.getD 2 "")) else "") = "DNF"
        · rw [if_pos hm] at hsome
          injection hsome with h
          subst h
          exact ⟨fun _ => ⟨rfl, rfl⟩, fun _ => rfl⟩
        · rw [if_neg hm] at hsome
          by_cases he : (if 2 < row.length then cleanTimeString (goTrim (row.getD 2 "")) else "") = ""
          · rw [if_pos he] at hsome
            exact Option.noConfusion hsome
          · rw [if_neg he] at hsome
            cases hft : roundAndFormatTime
                (if 2 < row.length then cleanTimeString (goTrim (row.getD 2 "")) else "") with
            | none =>
              rw [hft] at hsome
              exact Option.noConfusion hsome
            | some ft =>
              rw [hft] at hsome
              injection hsome with h
              subst h
              refine ⟨fun hmk => absurd hmk hm, fun htime => ?_⟩
              rcases roundAndFormat_ne_marker hft with ⟨h1, h2⟩
              rcases htime with ht | ht
              · exact absurd ht h1
              · exact absurd ht h2

/-! ## Digit and rendering lemmas -/

theorem natDigitsFuel_mem : ∀ f n d, d ∈ natDigitsFuel f n → d < 10 := by
  intro f
  induction f with
  | zero => intro n d h; exact absurd h (List.not_mem_nil d)
  | succ f ih =>
    intro n d h
    unfold natDigitsFuel at h
    by_cases h0 : n = 0
    · rw [if_pos h0] at h
      exact absurd h (List.not_mem_nil d)
    · rw [if_neg h0, List.mem_append] at h
      rcases h with h | h
      · exact ih _ _ h
      · rw [List.mem_singleton] at h
        rw [h]
        exact Nat.mod_lt n (by norm_num)

theorem digitsValNat_append_singleton (l : List Char) (c : Char) :
    digitsValNat (l ++ [c]) = 10 * digitsValNat l + charVal c := by
  unfold digitsValNat
  rw [List.foldl_append]
  rfl

theorem charVal_digitChar {d : Nat} (h : d < 10) : charVal (digitChar d) = d := by
  interval_cases d <;> rfl

theorem natDigitsFuel_val : ∀ f n, n ≤ f → digitsValNat ((natDigitsFuel f n).map digitChar) = n := by
  intro f
  induction f with
  | zero =>
    intro n h
    interval_cases n
    rfl
  | succ f ih =>
    intro n h
    unfold natDigitsFuel
    by_cases h0 : n = 0
    · rw [if_pos h0, List.map_nil]
      rw [h0]
      rfl
    · rw [if_neg h0, List.map_append, List.map_singleton, digitsValNat_append_singleton,
        charVal_digitChar (Nat.mod_lt n (by norm_num))]
      have hlt : n / 10 < n := Nat.div_lt_self (Nat.pos_of_ne_zero h0) (by norm_num)
      rw [ih (n / 10) (by omega)]
      omega

theorem natReprL_val (n : ℕ) : digitsValNat (natReprL n) = n := by
  unfold natReprL
  by_cases h : n = 0
  · rw [if_pos h, h]
    rfl
  · rw [if_neg h]
    exact natDigitsFuel_val n n le_rfl

theorem natDigitsFuel_succ (f n : ℕ) :
    natDigitsFuel (f + 1) n = if n = 0 then [] else natDigitsFuel f (n / 10) ++ [n % 10] := rfl

theorem natReprL_ne_nil (n : ℕ) : natReprL n ≠ [] := by
  unfold natReprL
  by_cases h : n = 0
  · rw [if_pos h]
    exact List.cons_ne_nil _ _
  · rw [if_neg h]
    cases n with
    | zero => exact absurd rfl h
    | succ m =>
      rw [natDigitsFuel_succ, if_neg h, List.map_append]
      simp

theorem natReprL_mem_digit {n : ℕ} {c : Char} (h : c ∈ natReprL n) :
    ∃ d, d < 10 ∧ c = digitChar d := by
  unfold natReprL at h
  by_cases h0 : n = 0
  · rw [if_pos h0, List.mem_singleton] at h
    exact ⟨0, by norm_num, h⟩
  · rw [if_neg h0, List.mem_map] at h
    obtain ⟨d, hd, rfl⟩ := h
    exact ⟨d, natDigitsFuel_mem n n d hd, rfl⟩

/-- The character classes of a decimal digit: a digit character passes
the digit test, is not whitespace, and is none of the separator or
sign characters of the time grammar. -/
theorem digitChar_class {d : Nat} (h : d < 10) :
    isDigitChar (digitChar d) = true ∧ isGoSpace (digitChar d) = false ∧
    ¬ digitChar d = ':' ∧ ¬ digitChar d = '.' ∧ ¬ digitChar d = '-' ∧
    ¬ digitChar d = '+' ∧ ¬ digitChar d = 'e' ∧ ¬ digitChar d = 'E' := by
  interval_cases d <;> exact ⟨rfl, rfl, by decide, by decide, by decide, by decide,
    by decide, by decide⟩

theorem natReprL_digits {n : ℕ} {c : Char} (h : c ∈ natReprL n) : isDigitChar c = true := by
  obtain ⟨d, hd, rfl⟩ := natReprL_mem_digit h
  exact (digitChar_class hd).1

theorem isDigit_ne {c x : Char} (hc : isDigitChar c = true) (hx : isDigitChar x = false) :
    ¬ c = x := by
  intro h
  rw [h, hx] at hc
  exact Bool.noConfusion hc

theorem digit_not_space {c : Char} (hc : isDigitChar c = true) : isGoSpace c = false := by
  cases hg : isGoSpace c
  · rfl
  · exfalso
    have := (decide_eq_true_iff).1 hg
    rcases this with h | h | h | h | h | h | h | h <;> rw [h] at hc <;> exact absurd hc (by decide)

theorem digit_ne_colon {c : Char} (hc : isDigitChar c = true) : ¬ c = ':' :=
  isDigit_ne hc (by decide)

/-! ## List scanning lemmas -/

theorem dropWhile_eq_self_of_head {α : Type} {p : α → Bool} {l : List α}
    (h : ∀ c ∈ l, p c = false) : l.dropWhile p = l := by
  cases l with
  | nil => rfl
  | cons c cs =>
    rw [List.dropWhile_cons, h c (List.mem_cons_self c cs)]
    simp

theorem goTrimL_eq_self {l : List Char} (h : ∀ c ∈ l, isGoSpace c = false) :
    goTrimL l = l := by
  unfold goTrimL
  rw [dropWhile_eq_self_of_head h, dropWhile_eq_self_of_head (by
    intro c hc
    exact h c (List.mem_reverse.1 hc)), List.reverse_reverse]

theorem takeWhile_all {α : Type} {p : α → Bool} {l : List α} (h : ∀ c ∈ l, p c = true) :
    l.takeWhile p = l := by
  induction l with
  | nil => rfl
  | cons c cs ih =>
    rw [List.takeWhile_cons, h c (List.mem_cons_self c cs), if_pos rfl]
    rw [ih fun x hx => h x (List.mem_cons_of_mem c hx)]

theorem dropWhile_all {α : Type} {p : α → Bool} {l : List α} (h : ∀ c ∈ l, p c = true) :
    l.dropWhile p = [] := by
  induction l with
  | nil => rfl
  | cons c cs ih =>
    rw [List.dropWhile_cons, h c (List.mem_cons_self c cs), if_pos rfl]
    exact ih fun x hx => h x (List.mem_cons_of_mem c hx)

theorem takeWhile_append_boundary {α : Type} {p : α → Bool} {xs ys : List α} {y : α}
    (hx : ∀ c ∈ xs, p c = true) (hy : p y = false) :
    (xs ++ y :: ys).takeWhile p = xs ∧ (xs ++ y :: ys).dropWhile p = y :: ys := by
  induction xs with
  | nil =>
    constructor
    · rw [List.nil_append, List.takeWhile_cons, hy]
      simp
    · rw [List.nil_append, List.dropWhile_cons, hy]
      simp
  | cons c cs ih =>
    have hc : p c = true := hx c (List.mem_cons_self c cs)
    have ih' := ih fun x hxm => hx x (List.mem_cons_of_mem c hxm)
    constructor
    · rw [List.cons_append, List.takeWhile_cons, hc, if_pos rfl, ih'.1]
    · rw [List.cons_append, List.dropWhile_cons, hc, if_pos rfl, ih'.2]

theorem splitOnChar_cons (sep c : Char) (cs : List Char) :
    splitOnChar sep (c :: cs) =
      match splitOnChar sep cs with
      | [] => [[]]
      | g :: gs => if c = sep then [] :: g :: gs else (c :: g) :: gs := rfl

theorem splitOnChar_ne_nil (sep : Char) (l : List Char) : splitOnChar sep l ≠ [] := by
  cases l with
  | nil => exact List.cons_ne_nil _ _
  | cons c cs =>
    rw [splitOnChar_cons]
    cases splitOnChar sep cs with
    | nil => exact List.cons_ne_nil _ _
    | cons g gs => by_cases h : c = sep <;> simp [h]

theorem splitOnChar_nosep {sep : Char} {l : List Char} (h : ∀ c ∈ l, ¬ c = sep) :
    splitOnChar sep l = [l] := by
  induction l with
  | nil => rfl
  | cons c cs ih =>
    rw [splitOnChar_cons, ih fun x hx => h x (List.mem_cons_of_mem c hx)]
    simp [h c (List.mem_cons_self c cs)]

theorem splitOnChar_cons_sep (sep : Char) (b : List Char) :
    splitOnChar sep (sep :: b) = [] :: splitOnChar sep b := by
  rw [splitOnChar_cons]
  cases hb : splitOnChar sep b with
  | nil => exact absurd hb (splitOnChar_ne_nil sep b)
  | cons g gs => simp

theorem splitOnChar_append {sep : Char} {a b : List Char} (h : ∀ c ∈ a, ¬ c = sep) :
    splitOnChar sep (a ++ sep :: b) = a :: splitOnChar sep b := by
  induction a with
  | nil =>
    rw [List.nil_append, splitOnChar_cons_sep]
  | cons c cs ih =>
    rw [List.cons_append, splitOnChar_cons, ih fun x hx => h x (List.mem_cons_of_mem c hx)]
    simp [h c (List.mem_cons_self c cs)]

/-! ## Evaluating the float grammar on rendered digit strings -/

theorem digitsValNat_nil : digitsValNat [] = 0 := rfl

theorem digitsValNat_cons_zero (l : List Char) : digitsValNat ('0' :: l) = digitsValNat l := rfl

theorem splitSign_cons_digit {c : Char} {t : List Char} (hc : isDigitChar c = true) :
    splitSign (c :: t) = (false, c :: t) := by
  unfold splitSign
  dsimp only
  rw [if_neg (isDigit_ne hc (by decide)), if_neg (isDigit_ne hc (by decide))]

/-- The float grammar on a pure digit run. -/
theorem parseFloat_digits {l : List Char} (hne : l ≠ [])
    (hd : ∀ c ∈ l, isDigitChar c = true) :
    parseFloatChars l = some ⟨(digitsValNat l : ℤ), 0⟩ := by
  obtain ⟨c, t, rfl⟩ := List.exists_cons_of_ne_nil hne
  unfold parseFloatChars
  rw [splitSign_cons_digit (hd c (List.mem_cons_self c t))]
  dsimp only
  rw [takeWhile_all hd, dropWhile_all hd]
  simp [digitsValNat_nil]

/-- The float grammar on `digits.digits`. -/
theorem parseFloat_digits_dot {a b : List Char} (hane : a ≠ [])
    (ha : ∀ c ∈ a, isDigitChar c = true)
    (hb : ∀ c ∈ b, isDigitChar c = true) :
    parseFloatChars (a ++ '.' :: b) =
      some ⟨(digitsValNat a : ℤ) * 10 ^ b.length + (digitsValNat b : ℤ), b.length⟩ := by
  obtain ⟨c, t, rfl⟩ := List.exists_cons_of_ne_nil hane
  have hbd := @takeWhile_append_boundary Char isDigitChar (c :: t) b '.' ha (by decide)
  unfold parseFloatChars
  rw [show (c :: t) ++ '.' :: b = c :: (t ++ '.' :: b) from rfl,
    splitSign_cons_digit (ha c (List.mem_cons_self c t))]
  dsimp only
  rw [show c :: (t ++ '.' :: b) = (c :: t) ++ '.' :: b from rfl,
    hbd.1, hbd.2]
  dsimp only
  rw [if_pos rfl, takeWhile_all hb, dropWhile_all hb]
  simp

/-! ## Rendered segment shapes -/

theorem natDigitsFuel_zero (f : ℕ) : natDigitsFuel f 0 = [] := by
  cases f <;> rfl

theorem natDigitsFuel_single {f n : ℕ} (h1 : n ≠ 0) (h2 : n < 10) (hf : n ≤ f) :
    natDigitsFuel f n = [n] := by
  cases f with
  | zero => omega
  | succ f =>
    rw [natDigitsFuel_succ, if_neg h1, Nat.div_eq_of_lt h2, natDigitsFuel_zero,
      List.nil_append, Nat.mod_eq_of_lt h2]

theorem natDigitsFuel_double {f n : ℕ} (h1 : 10 ≤ n) (h2 : n < 100) (hf : n ≤ f) :
    natDigitsFuel f n = [n / 10, n % 10] := by
  cases f with
  | zero => omega
  | succ f =>
    rw [natDigitsFuel_succ, if_neg (by omega)]
    rw [natDigitsFuel_single (by omega) (by omega) (by omega)]
    rfl

theorem natReprL_length_one {n : ℕ} (h : n < 10) : (natReprL n).length = 1 := by
  unfold natReprL
  by_cases h0 : n = 0
  · rw [if_pos h0]
    rfl
  · rw [if_neg h0, natDigitsFuel_single h0 h le_rfl]
    rfl

theorem natReprL_length_two {n : ℕ} (h1 : 10 ≤ n) (h2 : n < 100) :
    (natReprL n).length = 2 := by
  unfold natReprL
  rw [if_neg (by omega), natDigitsFuel_double h1 h2 le_rfl]
  rfl

theorem pad2L_nonneg_eq {i : ℤ} (h : 0 ≤ i) :
    pad2L i = if i.natAbs < 10 then '0' :: natReprL i.natAbs else natReprL i.natAbs := by
  unfold pad2L
  rw [if_neg (not_lt.2 h)]

theorem pad2L_digits {i : ℤ} (h : 0 ≤ i) : ∀ c ∈ pad2L i, isDigitChar c = true := by
  rw [pad2L_nonneg_eq h]
  split
  · intro c hc
    rcases List.mem_cons.1 hc with rfl | hc
    · decide
    · exact natReprL_digits hc
  · intro c hc
    exact natReprL_digits hc

theorem pad2L_ne_nil {i : ℤ} (h : 0 ≤ i) : pad2L i ≠ [] := by
  rw [pad2L_nonneg_eq h]
  split
  · exact List.cons_ne_nil _ _
  · exact natReprL_ne_nil _

theorem pad2L_val {i : ℤ} (h : 0 ≤ i) : digitsValNat (pad2L i) = i.natAbs := by
  rw [pad2L_nonneg_eq h]
  split
  · rw [digitsValNat_cons_zero, natReprL_val]
  · rw [natReprL_val]

theorem pad2L_length {i : ℤ} (h0 : 0 ≤ i) (h99 : i < 100) : (pad2L i).length = 2 := by
  rw [pad2L_nonneg_eq h0]
  by_cases h : i.natAbs < 10
  · rw [if_pos h, List.length_cons, natReprL_length_one h]
  · rw [if_neg h]
    exact natReprL_length_two (by omega) (by omega)

theorem intReprL_nonneg {i : ℤ} (h : 0 ≤ i) : intReprL i = natReprL i.natAbs := by
  unfold intReprL
  rw [if_neg (not_lt.2 h)]

/-! ## Membership combinators -/

theorem forall_mem_append' {α : Type} {P : α → Prop} {a b : List α}
    (ha : ∀ c ∈ a, P c) (hb : ∀ c ∈ b, P c) : ∀ c ∈ a ++ b, P c := by
  intro c hc
  rcases List.mem_append.1 hc with h | h
  · exact ha c h
  · exact hb c h

theorem forall_mem_cons'' {α : Type} {P : α → Prop} {x : α} {l : List α}
    (hx : P x) (hl : ∀ c ∈ l, P c) : ∀ c ∈ x :: l, P c := by
  intro c hc
  rcases List.mem_cons.1 hc with rfl | h
  · exact hx
  · exact hl c h

theorem digits_nonspace {l : List Char} (h : ∀ c ∈ l, isDigitChar c = true) :
    ∀ c ∈ l, isGoSpace c = false :=
  fun c hc => digit_not_space (h c hc)

theorem digits_nocolon {l : List Char} (h : ∀ c ∈ l, isDigitChar c = true) :
    ∀ c ∈ l, ¬ c = ':' :=
  fun c hc => digit_ne_colon (h c hc)

/-! ## Value bridges for `Dec` -/

theorem Dec.val_mk (n : ℤ) (e : ℕ) : Dec.val ⟨n, e⟩ = (n : ℚ) / 10 ^ e := rfl

theorem Dec.val_ofInt (n : ℤ) : (Dec.ofInt n).val = (n : ℚ) := by
  unfold Dec.ofInt Dec.val
  norm_num

theorem Dec.val_scale (c : ℤ) (a : Dec) : (Dec.scale c a).val = (c : ℚ) * a.val := by
  unfold Dec.scale Dec.val
  push_cast
  ring

theorem div_pow_align (n : ℤ) (k e : ℕ) (h : k ≤ e) :
    ((n : ℚ) * 10 ^ (e - k)) / 10 ^ e = (n : ℚ) / 10 ^ k := by
  rw [div_eq_div_iff (by positivity) (by positivity), mul_assoc, ← pow_add,
    Nat.sub_add_cancel h]

theorem Dec.val_add (a b : Dec) : (Dec.add a b).val = a.val + b.val := by
  unfold Dec.add Dec.val
  dsimp only
  push_cast
  rw [add_div, div_pow_align a.num a.exp (max a.exp b.exp) (le_max_left _ _),
    div_pow_align b.num b.exp (max a.exp b.exp) (le_max_right _ _)]

/-! ## Re-parsing a rendered time -/

theorem parseFloat_secondsTail {s k : ℤ} (hs : 0 ≤ s) (hk0 : 0 ≤ k) :
    parseFloatChars (pad2L s ++ '.' :: pad2L k) =
      some ⟨(digitsValNat (pad2L s) : ℤ) * 10 ^ (pad2L k).length +
        (digitsValNat (pad2L k) : ℤ), (pad2L k).length⟩ :=
  parseFloat_digits_dot (pad2L_ne_nil hs) (pad2L_digits hs) (pad2L_digits hk0)

theorem val_secondsTail {s k : ℤ} (hs : 0 ≤ s) (hk0 : 0 ≤ k) (hk99 : k < 100) :
    Dec.val ⟨(digitsValNat (pad2L s) : ℤ) * 10 ^ (pad2L k).length +
        (digitsValNat (pad2L k) : ℤ), (pad2L k).length⟩ = (s : ℚ) + (k : ℚ) / 100 := by
  rw [Dec.val_mk, pad2L_val hs, pad2L_val hk0, pad2L_length hk0 hk99]
  push_cast [Int.natAbs_of_nonneg hs, Int.natAbs_of_nonneg hk0]
  field_simp
  norm_num

/-- Re-parsing any rendered decomposition with non-negative components
and two-digit hundredths yields exactly the represented value
`3600h + 60m + s + k/100`. -/
theorem reparse_renderParts {h m s k : ℤ} (hh : 0 ≤ h) (hm : 0 ≤ m) (hs : 0 ≤ s)
    (hk0 : 0 ≤ k) (hk99 : k < 100) :
    ∃ r : Dec, parseTimeString (String.mk (renderParts ⟨h, m, s, k⟩)) = some r ∧
      r.val = 3600 * (h : ℚ) + 60 * (m : ℚ) + (s : ℚ) + (k : ℚ) / 100 := by
  have dA : ∀ c ∈ natReprL h.natAbs, isDigitChar c = true := fun c hc => natReprL_digits hc
  have dM : ∀ c ∈ natReprL m.natAbs, isDigitChar c = true := fun c hc => natReprL_digits hc
  have dS : ∀ c ∈ natReprL s.natAbs, isDigitChar c = true := fun c hc => natReprL_digits hc
  have dB := pad2L_digits hm
  have dC := pad2L_digits hs
  have dD := pad2L_digits hk0
  have tailNoColon : ∀ c ∈ pad2L s ++ '.' :: pad2L k, ¬ c = ':' :=
    forall_mem_append' (digits_nocolon dC) (forall_mem_cons'' (by decide) (digits_nocolon dD))
  have tailNoSpace : ∀ c ∈ pad2L s ++ '.' :: pad2L k, isGoSpace c = false :=
    forall_mem_append' (digits_nonspace dC)
      (forall_mem_cons'' (by decide) (digits_nonspace dD))
  unfold renderParts
  dsimp only
  by_cases hp : (0 : ℤ) < h
  · rw [if_pos hp, intReprL_nonneg hh]
    unfold parseTimeString
    rw [mk_data, goTrimL_eq_self (forall_mem_append' (digits_nonspace dA)
      (forall_mem_cons'' (by decide) (forall_mem_append' (digits_nonspace dB)
        (forall_mem_cons'' (by decide) tailNoSpace))))]
    rw [splitOnChar_append (digits_nocolon dA), splitOnChar_append (digits_nocolon dB),
      splitOnChar_nosep tailNoColon]
    dsimp only
    rw [parseFloat_digits (natReprL_ne_nil _) dA, parseFloat_digits (pad2L_ne_nil hm) dB,
      parseFloat_secondsTail hs hk0]
    dsimp only
    refine ⟨_, rfl, ?_⟩
    rw [Dec.val_add, Dec.val_add, Dec.val_scale, Dec.val_scale, Dec.val_mk, Dec.val_mk,
      natReprL_val, pad2L_val hm, val_secondsTail hs hk0 hk99]
    push_cast [Int.natAbs_of_nonneg hh, Int.natAbs_of_nonneg hm]
    ring
  · have h0 : h = 0 := le_antisymm (not_lt.1 hp) hh
    rw [if_neg hp]
    by_cases hq : (0 : ℤ) < m
    · rw [if_pos hq, intReprL_nonneg hm]
      unfold parseTimeString
      rw [mk_data, goTrimL_eq_self (forall_mem_append' (digits_nonspace dM)
        (forall_mem_cons'' (by decide) tailNoSpace))]
      rw [splitOnChar_append (digits_nocolon dM), splitOnChar_nosep tailNoColon]
      dsimp only
      rw [parseFloat_digits (natReprL_ne_nil _) dM, parseFloat_secondsTail hs hk0]
      dsimp only
      refine ⟨_, rfl, ?_⟩
      rw [Dec.val_add, Dec.val_scale, Dec.val_mk, natReprL_val,
        val_secondsTail hs hk0 hk99]
      push_cast [Int.natAbs_of_nonneg hm]
      rw [h0]
      push_cast
      ring
    · have m0 : m = 0 := le_antisymm (not_lt.1 hq) hm
      rw [if_neg hq, intReprL_nonneg hs]
      unfold parseTimeString
      rw [mk_data, goTrimL_eq_self (forall_mem_append' (digits_nonspace dS)
        (forall_mem_cons'' (by decide) (digits_nonspace dD)))]
      rw [splitOnChar_nosep (forall_mem_append' (digits_nocolon dS)
        (forall_mem_cons'' (by decide) (digits_nocolon dD)))]
      dsimp only
      rw [parseFloat_digits_dot (natReprL_ne_nil _) dS dD]
      refine ⟨_, rfl, ?_⟩
      rw [Dec.val_mk, natReprL_val, pad2L_val hk0, pad2L_length hk0 hk99]
      push_cast [Int.natAbs_of_nonneg hs, Int.natAbs_of_nonneg hk0]
      rw [h0, m0]
      push_cast
      field_simp
      norm_num

/-! ## The decomposition arithmetic of `roundAndFormatTime` -/

theorem Dec.ceilZ_eq (d : Dec) : d.ceilZ = ⌈d.val⌉ := by
  unfold Dec.ceilZ Dec.val
  rw [show ⌈(d.num : ℚ) / 10 ^ d.exp⌉ = -⌊-((d.num : ℚ) / 10 ^ d.exp)⌋ by
    rw [Int.floor_neg, neg_neg]]
  congr 1
  rw [← neg_div, show (-(d.num : ℚ)) = ((-d.num : ℤ) : ℚ) by push_cast; ring,
    show ((10 : ℚ) ^ d.exp) = ((10 ^ d.exp : ℕ) : ℚ) by push_cast; ring,
    Rat.floor_intCast_div_natCast]
  push_cast
  rfl

/-- For a value with non-negative elapsed seconds, the decomposition of
`roundAndFormatTime` is the euclidean hour/minute/second/hundredth
split of the ceiling `C := ⌈total*100⌉`, and the hundredths-overflow
carry never fires. -/
theorem formatParts_spec (t : Dec) (h : 0 ≤ Dec.val t) :
    formatParts t =
      ⟨⌈Dec.val t * 100⌉ / 100 / 3600, ⌈Dec.val t * 100⌉ / 100 % 3600 / 60,
        ⌈Dec.val t * 100⌉ / 100 % 60, ⌈Dec.val t * 100⌉ % 100⟩ := by
  have hC : Dec.ceilZ (Dec.scale 100 t) = ⌈Dec.val t * 100⌉ := by
    rw [Dec.ceilZ_eq, Dec.val_scale, mul_comm]
    norm_num
  have hC0 : (0 : ℤ) ≤ ⌈Dec.val t * 100⌉ := Int.ceil_nonneg (by positivity)
  unfold formatParts
  dsimp only
  rw [hC]
  generalize hg : ⌈Dec.val t * 100⌉ = C at hC0 ⊢
  have htr : Dec.trunc ⟨C, 2⟩ = C / 100 := by
    unfold Dec.trunc
    rw [show ((10 : ℤ) ^ 2) = 100 by norm_num]
    exact Int.tdiv_eq_ediv hC0 (by norm_num)
  rw [htr]
  have hri : (0 : ℤ) ≤ C / 100 := Int.ediv_nonneg hC0 (by norm_num)
  rw [Int.tdiv_eq_ediv hri (show (0 : ℤ) ≤ 3600 by norm_num),
    Int.tmod_eq_emod hri (show (0 : ℤ) ≤ 3600 by norm_num),
    Int.tmod_eq_emod hri (show (0 : ℤ) ≤ 60 by norm_num),
    Int.tdiv_eq_ediv (Int.emod_nonneg _ (by norm_num)) (show (0 : ℤ) ≤ 60 by norm_num)]
  have hround : (Dec.scale 100 (Dec.sub ⟨C, 2⟩ (Dec.ofInt (C / 100)))).roundAway = C % 100 := by
    unfold Dec.ofInt Dec.sub Dec.scale Dec.roundAway
    dsimp only
    norm_num
    have hk : C - C / 100 * 100 = C % 100 := by
      rw [Int.emod_def]
      ring
    rw [hk]
    have hknn : (0 : ℤ) ≤ C % 100 := Int.emod_nonneg C (by norm_num)
    rw [if_pos (by omega)]
    rw [show 2 * (100 * (C % 100)) + 100 = 100 + (C % 100) * 200 by ring,
      show ((100 + C % 100 * 200 : ℤ)).ediv 200 = (100 + C % 100 * 200) / 200 from rfl,
      Int.add_mul_ediv_right 100 (C % 100) (show (200 : ℤ) ≠ 0 by norm_num)]
    norm_num
  rw [hround]
  rw [if_neg (by
    have := Int.emod_lt_of_pos C (show (0 : ℤ) < 100 by norm_num)
    omega)]

/-! ## Claim C1: the ordering invariant of parsed results -/

/-- Boolean `≤` on decimals agrees with `≤` on their values. -/
theorem Dec.leB_iff (a b : Dec) : Dec.leB a b = true ↔ Dec.val a ≤ Dec.val b := by
  unfold Dec.leB Dec.val
  rw [decide_eq_true_iff, div_le_div_iff₀ (by positivity) (by positivity)]
  constructor <;> intro h <;> exact_mod_cast h

/-- In assembled output, a marker entry is only ever followed by
marker entries: all `DQ`/`DNF` entries sit at the end. -/
theorem assemble_markers_last (l : List Competitor) :
    (assembleCompetitors l).Pairwise (fun a b => isMarkerB a = true → isMarkerB b = true) := by
  unfold assembleCompetitors
  rw [List.pairwise_append]
  refine ⟨?_, ?_, ?_⟩
  · apply List.pairwise_of_forall_mem_list
    intro a ha b _ hma
    have hf := List.of_mem_filter ((List.mem_insertionSort timeLE).1 ha)
    simp only [Bool.not_eq_true'] at hf
    rw [hf] at hma
    exact Bool.noConfusion hma
  · apply List.pairwise_of_forall_mem_list
    intro a _ b hb _
    exact List.of_mem_filter hb
  · intro a ha b _ hma
    have hf := List.of_mem_filter ((List.mem_insertionSort timeLE).1 ha)
    simp only [Bool.not_eq_true'] at hf
    rw [hf] at hma
    exact Bool.noConfusion hma

/-- In assembled output, the non-marker entries are non-decreasing in
the elapsed-seconds value of their re-parsed time strings. -/
theorem assemble_sorted (l : List Competitor) :
    ((assembleCompetitors l).filter (fun c => !(isMarkerB c))).Pairwise
      (fun a b => (timeVal a).val ≤ (timeVal b).val) := by
  unfold assembleCompetitors
  rw [List.filter_append]
  have h1 : ((l.filter (fun c => !(isMarkerB c))).insertionSort timeLE).filter
      (fun c => !(isMarkerB c)) = (l.filter (fun c => !(isMarkerB c))).insertionSort timeLE := by
    apply List.filter_eq_self.2
    intro a ha
    have h' : a ∈ List.filter (fun c => !(isMarkerB c)) l :=
      (List.mem_insertionSort timeLE).1 ha
    have h'' := List.of_mem_filter h'
    simpa using h''
  have h2 : (l.filter isMarkerB).filter (fun c => !(isMarkerB c)) = [] := by
    apply List.filter_eq_nil_iff.2
    intro a ha
    have hm := List.of_mem_filter ha
    simp [hm]
  rw [h1, h2, List.append_nil]
  exact (List.sorted_insertionSort timeLE _).imp fun hab => (Dec.leB_iff _ _).1 hab

/-- In assembled output, the marker entries are exactly the marker
entries of the raw list, in their original relative order. -/
theorem assemble_markers_eq (l : List Competitor) :
    (assembleCompetitors l).filter isMarkerB = l.filter isMarkerB := by
  unfold assembleCompetitors
  rw [List.filter_append]
  have h1 : ((l.filter (fun c => !(isMarkerB c))).insertionSort timeLE).filter isMarkerB = [] := by
    apply List.filter_eq_nil_iff.2
    intro a ha
    have hm := List.of_mem_filter ((List.mem_insertionSort timeLE).1 ha)
    simp only [Bool.not_eq_true'] at hm
    simp [hm]
  have h2 : (l.filter isMarkerB).filter isMarkerB = l.filter isMarkerB := by
    apply List.filter_eq_self.2
    intro a ha
    exact List.of_mem_filter ha
  rw [h1, h2, List.nil_append]

/-- A successful comma-format parse carries exactly the assembled raw
competitor list. -/
theorem parseLif_ok_competitors {fileName : String} {modifiedTime : ℤ}
    {records : List (List String)} {d : LifData}
    (h : parseLifRecords fileName modifiedTime records = .ok d) :
    d.competitors = assembleCompetitors (lifCompetitors records) := by
  simp only [parseLifRecords] at h
  split at h
  · exact Except.noConfusion h
  · split at h
    · exact Except.noConfusion h
    · injection h with h
      subst h
      rfl

/-- A successful tab-format parse carries exactly the assembled raw
competitor list. -/
theorem parseRes_ok_competitors {isTxt : Bool} {fileName : String} {modifiedTime : ℤ}
    {records : List (List String)} {d : LifData}
    (h : parseResRecords isTxt fileName modifiedTime records = .ok d) :
    d.competitors = assembleCompetitors (resCompetitors isTxt records) := by
  simp only [parseResRecords] at h
  split at h
  · exact Except.noConfusion h
  · split at h
    · exact Except.noConfusion h
    · injection h with h
      subst h
      rfl

/-- C1: in every successfully parsed `LifData` (either record parser),
the `DQ`/`DNF` entries all come after every timed entry, the timed
entries are non-decreasing in the elapsed-seconds value obtained by
re-parsing their formatted times with `parseTimeString`, and the
`DQ`/`DNF` entries keep their original relative file order. -/
theorem C1_ordering_invariant (fileName : String) (modifiedTime : ℤ)
    (records : List (List String)) (isTxt : Bool) (d : LifData) :
    (parseLifRecords fileName modifiedTime records = .ok d →
      d.competitors.Pairwise (fun a b => isMarkerB a = true → isMarkerB b = true)
      ∧ (d.competitors.filter (fun c => !(isMarkerB c))).Pairwise
          (fun a b => (timeVal a).val ≤ (timeVal b).val)
      ∧ d.competitors.filter isMarkerB = (lifCompetitors records).filter isMarkerB)
    ∧ (parseResRecords isTxt fileName modifiedTime records = .ok d →
      d.competitors.Pairwise (fun a b => isMarkerB a = true → isMarkerB b = true)
      ∧ (d.competitors.filter (fun c => !(isMarkerB c))).Pairwise
          (fun a b => (timeVal a).val ≤ (timeVal b).val)
      ∧ d.competitors.filter isMarkerB = (resCompetitors isTxt records).filter isMarkerB) := by
  constructor
  · intro h
    rw [parseLif_ok_competitors h]
    exact ⟨assemble_markers_last _, assemble_sorted _, assemble_markers_eq _⟩
  · intro h
    rw [parseRes_ok_competitors h]
    exact ⟨assemble_markers_last _, assemble_sorted _, assemble_markers_eq _⟩

/-- Witness for C1 at `wRecs`. -/
theorem C1_ordering_invariant_witness :
    wLif.competitors.Pairwise (fun a b => isMarkerB a = true → isMarkerB b = true)
    ∧ (wLif.competitors.filter (fun c => !(isMarkerB c))).Pairwise
        (fun a b => (timeVal a).val ≤ (timeVal b).val)
    ∧ wLif.competitors.filter isMarkerB = (lifCompetitors wRecs).filter isMarkerB :=
  (C1_ordering_invariant ("a.lif") 5 wRecs false wLif).1 rfl

/-! ## Claim C7: deduplication in the directory scan -/

theorem lookup_isSome_iff {β : Type} (l : List (String × β)) (k : String) :
    (l.lookup k).isSome ↔ k ∈ l.map Prod.fst := by
  induction l with
  | nil => simp [List.lookup]
  | cons p t ih =>
    cases p with
    | mk a b =>
      by_cases h : k = a
      · subst h
        simp [List.lookup]
      · have hb : (k == a) = false := beq_eq_false_iff_ne.2 h
        simp only [List.lookup, hb]
        rw [ih]
        simp [h]

theorem nodup_fst_eq {α β : Type} {l : List (α × β)} (h : (l.map Prod.fst).Nodup)
    {p q : α × β} (hp : p ∈ l) (hq : q ∈ l) (he : p.1 = q.1) : p = q := by
  induction l with
  | nil => exact absurd hp (List.not_mem_nil p)
  | cons x t ih =>
    rw [List.map_cons, List.nodup_cons] at h
    rcases List.mem_cons.1 hp with rfl | hp' <;> rcases List.mem_cons.1 hq with rfl | hq'
    · rfl
    · exfalso
      apply h.1
      rw [he]
      exact List.mem_map_of_mem Prod.fst hq'
    · exfalso
      apply h.1
      rw [← he]
      exact List.mem_map_of_mem Prod.fst hp'
    · exact ih h.2 hp' hq'

theorem dedupInsert_inv (r : LifData) {seen : List (String × LifData)}
    {processed : List LifData} (h : DedupInv seen processed) :
    DedupInv (dedupInsert seen r) (processed ++ [r]) := by
  obtain ⟨h1, h2, h3, h4⟩ := h
  unfold dedupInsert
  by_cases hl : ((seen.lookup (compositionKey r)).isSome : Prop)
  · rw [if_pos hl]
    have hkeys : (seen.map (fun p =>
        if p.1 = compositionKey r ∧ p.2.modifiedTime < r.modifiedTime
          then (compositionKey r, r) else p)).map Prod.fst = seen.map Prod.fst := by
      rw [List.map_map]
      apply List.map_congr_left
      intro q hq
      dsimp only [Function.comp]
      by_cases hc : q.1 = compositionKey r ∧ q.2.modifiedTime < r.modifiedTime
      · rw [if_pos hc]
        exact hc.1.symm
      · rw [if_neg hc]
    have hmem : compositionKey r ∈ seen.map Prod.fst := (lookup_isSome_iff seen _).1 hl
    refine ⟨?_, ?_, ?_, ?_⟩
    · intro p hp
      obtain ⟨q, hq, rfl⟩ := List.mem_map.1 hp
      by_cases hc : q.1 = compositionKey r ∧ q.2.modifiedTime < r.modifiedTime
      · rw [if_pos hc]
      · rw [if_neg hc]
        exact h1 q hq
    · rw [hkeys]
      exact h2
    · intro k
      rw [hkeys]
      constructor
      · rintro ⟨r', hr', hk⟩
        rcases List.mem_append.1 hr' with hr' | hr'
        · exact (h3 k).1 ⟨r', hr', hk⟩
        · rw [List.mem_singleton] at hr'
          subst hr'
          exact hk ▸ hmem
      · intro hk
        obtain ⟨r', hr', hk'⟩ := (h3 k).2 hk
        exact ⟨r', List.mem_append_left _ hr', hk'⟩
    · intro p hp
      obtain ⟨q, hq, rfl⟩ := List.mem_map.1 hp
      by_cases hc : q.1 = compositionKey r ∧ q.2.modifiedTime < r.modifiedTime
      · rw [if_pos hc]
        refine ⟨List.mem_append_right _ (List.mem_singleton_self r), ?_⟩
        intro r' hr' hk
        rcases List.mem_append.1 hr' with hr' | hr'
        · have := (h4 q hq).2 r' hr' (by rw [hk, ← hc.1])
          exact le_trans this (le_of_lt hc.2)
        · rw [List.mem_singleton] at hr'
          subst hr'
          exact le_refl _
      · rw [if_neg hc]
        refine ⟨List.mem_append_left _ (h4 q hq).1, ?_⟩
        intro r' hr' hk
        rcases List.mem_append.1 hr' with hr' | hr'
        · exact (h4 q hq).2 r' hr' hk
        · rw [List.mem_singleton] at hr'
          subst hr'
          rw [not_and_or, not_lt] at hc
          rcases hc with hc | hc
          · exact absurd hk.symm hc
          · exact hc
  · rw [if_neg hl]
    have hnmem : compositionKey r ∉ seen.map Prod.fst := fun hm =>
      hl ((lookup_isSome_iff seen _).2 hm)
    refine ⟨?_, ?_, ?_, ?_⟩
    · intro p hp
      rcases List.mem_append.1 hp with hp | hp
      · exact h1 p hp
      · rw [List.mem_singleton] at hp
        subst hp
        rfl
    · rw [List.map_append]
      exact List.Nodup.append h2 (List.nodup_singleton _) (by
        intro a ha hb
        rw [List.map_singleton, List.mem_singleton] at hb
        subst hb
        exact hnmem ha)
    · intro k
      rw [List.map_append, List.map_singleton, List.mem_append, List.mem_singleton]
      constructor
      · rintro ⟨r', hr', hk⟩
        rcases List.mem_append.1 hr' with hr' | hr'
        · exact Or.inl ((h3 k).1 ⟨r', hr', hk⟩)
        · rw [List.mem_singleton] at hr'
          subst hr'
          exact Or.inr hk.symm
      · rintro (hk | hk)
        · obtain ⟨r', hr', hk'⟩ := (h3 k).2 hk
          exact ⟨r', List.mem_append_left _ hr', hk'⟩
        · exact ⟨r, List.mem_append_right _ (List.mem_singleton_self r), hk.symm⟩
    · intro p hp
      rcases List.mem_append.1 hp with hps | hpr
      · refine ⟨List.mem_append_left _ (h4 p hps).1, ?_⟩
        intro r' hr' hk
        rcases List.mem_append.1 hr' with hrs | hrr
        · exact (h4 p hps).2 r' hrs hk
        · rw [List.mem_singleton] at hrr
          rw [hrr] at hk
          exfalso
          apply hnmem
          rw [hk]
          exact List.mem_map_of_mem Prod.fst hps
      · rw [List.mem_singleton] at hpr
        rw [hpr]
        refine ⟨List.mem_append_right _ (List.mem_singleton_self r), ?_⟩
        intro r' hr' hk
        rcases List.mem_append.1 hr' with hrs | hrr
        · exact absurd ((h3 (compositionKey r)).1 ⟨r', hrs, hk⟩) hnmem
        · rw [List.mem_singleton] at hrr
          rw [hrr]

theorem dedup_fold_inv (results : List LifData) :
    DedupInv (results.foldl dedupInsert []) results := by
  suffices h : ∀ rest (seen : List (String × LifData)) (processed : List LifData),
      DedupInv seen processed →
      DedupInv (rest.foldl dedupInsert seen) (processed ++ rest) by
    have := h results [] [] ⟨by simp, by simp, by simp, by simp⟩
    simpa using this
  intro rest
  induction rest with
  | nil =>
    intro seen processed h
    simpa using h
  | cons r rest ih =>
    intro seen processed h
    have := ih (dedupInsert seen r) (processed ++ [r]) (dedupInsert_inv r h)
    simpa [List.append_assoc] using this

/-- C7: results with identical ordered (firstName, lastName, time)
compositions share a composition key; and in the deduplicated,
time-sorted scan output every key occurring in the input is
represented by exactly one entry — an input entry of that key whose
modified time is maximal among the input entries of that key. -/
theorem C7_scan_deduplication (results : List LifData) :
    (∀ d e : LifData,
      d.competitors.map (fun c => (c.firstName, c.lastName, c.time))
        = e.competitors.map (fun c => (c.firstName, c.lastName, c.time)) →
      compositionKey d = compositionKey e)
    ∧ ∀ k, (∃ r ∈ results, compositionKey r = k) →
        ∃ d, d ∈ scanResults results ∧ compositionKey d = k ∧ d ∈ results
          ∧ (∀ r ∈ results, compositionKey r = k → r.modifiedTime ≤ d.modifiedTime)
          ∧ (∀ e ∈ scanResults results, compositionKey e = k → e = d) := by
  constructor
  · intro d e hde
    unfold compositionKey
    rw [show d.competitors.foldl
        (fun acc c => acc ++ c.firstName ++ "|" ++ c.lastName ++ "|" ++ c.time ++ ";") ""
        = (d.competitors.map (fun c => (c.firstName, c.lastName, c.time))).foldl
          (fun acc p => acc ++ p.1 ++ "|" ++ p.2.1 ++ "|" ++ p.2.2 ++ ";") "" by
      rw [List.foldl_map]]
    rw [show e.competitors.foldl
        (fun acc c => acc ++ c.firstName ++ "|" ++ c.lastName ++ "|" ++ c.time ++ ";") ""
        = (e.competitors.map (fun c => (c.firstName, c.lastName, c.time))).foldl
          (fun acc p => acc ++ p.1 ++ "|" ++ p.2.1 ++ "|" ++ p.2.2 ++ ";") "" by
      rw [List.foldl_map]]
    rw [hde]
  · intro k hk
    obtain ⟨h1, h2, h3, h4⟩ := dedup_fold_inv results
    have hkmem := (h3 k).1 hk
    obtain ⟨p, hp, hpk⟩ := List.mem_map.1 hkmem
    have hmem_scan : ∀ x : LifData, x ∈ scanResults results ↔
        x ∈ (results.foldl dedupInsert []).map Prod.snd := by
      intro x
      unfold scanResults
      exact List.mem_insertionSort _
    refine ⟨p.2, ?_, ?_, (h4 p hp).1, ?_, ?_⟩
    · rw [hmem_scan]
      exact List.mem_map_of_mem Prod.snd hp
    · rw [← h1 p hp, hpk]
    · intro r hr hrk
      exact (h4 p hp).2 r hr (by rw [hrk, ← hpk])
    · intro e he hek
      obtain ⟨q, hq, rfl⟩ := List.mem_map.1 ((hmem_scan e).1 he)
      have : q = p := nodup_fst_eq h2 hq hp (by rw [h1 q hq, hek, hpk])
      rw [this]

/-- Witness for C7 at the pair `wDup1`/`wDup2`. -/
theorem C7_scan_deduplication_witness :
    compositionKey wDup1 = compositionKey wDup2
    ∧ ∃ d, d ∈ scanResults [wDup1, wDup2] ∧ compositionKey d = compositionKey wDup1
        ∧ d ∈ [wDup1, wDup2]
        ∧ (∀ r ∈ [wDup1, wDup2], compositionKey r = compositionKey wDup1 →
            r.modifiedTime ≤ d.modifiedTime)
        ∧ (∀ e ∈ scanResults [wDup1, wDup2],
            compositionKey e = compositionKey wDup1 → e = d) :=
  ⟨(C7_scan_deduplication [wDup1, wDup2]).1 wDup1 wDup2 (by decide),
    (C7_scan_deduplication [wDup1, wDup2]).2 (compositionKey wDup1)
      ⟨wDup1, by decide, rfl⟩⟩

/-! ## Claim C10: no range or sign validation in time parsing -/

/-- C10: `parseTimeString` accepts any parts the float grammar parses
and returns the plain weighted sum — minutes or seconds of 60 or more
(`"1:99"` is 159 s), negative parts, and exponent notation all
succeed — and the values flow into formatting and sorting unchecked. -/
theorem C10_no_time_validation :
    (parseTimeString ("1:99")).map Dec.val = some (159 : ℚ)
    ∧ (parseTimeString ("-5")).map Dec.val = some (-5 : ℚ)
    ∧ (parseTimeString ("2:-30")).map Dec.val = some (90 : ℚ)
    ∧ (parseTimeString ("1e2")).map Dec.val = some (100 : ℚ)
    ∧ roundAndFormatTime ("1:99") = some ("2:39.00")
    ∧ (∀ (a b : List Char) (x y : Dec),
        parseFloatChars a = some x → parseFloatChars b = some y →
        (∀ c ∈ a, ¬ c = ':') → (∀ c ∈ b, ¬ c = ':') →
        (∀ c ∈ a ++ ':' :: b, isGoSpace c = false) →
        (parseTimeString (String.mk (a ++ ':' :: b))).map Dec.val
          = some (60 * Dec.val x + Dec.val y))
    ∧ assembleCompetitors
        [⟨"1", "", "", "", "", "100"⟩, ⟨"2", "", "", "", "", "1:39"⟩]
      = [⟨"2", "", "", "", "", "1:39"⟩, ⟨"1", "", "", "", "", "100"⟩] := by
  refine ⟨?_, ?_, ?_, ?_, by decide, ?_, by decide⟩
  · rw [show parseTimeString ("1:99") = some ⟨159, 0⟩ from by decide,
      show (some (⟨159, 0⟩ : Dec)).map Dec.val = some (Dec.val ⟨159, 0⟩) from rfl,
      show Dec.val ⟨159, 0⟩ = (159 : ℚ) / 10 ^ 0 from rfl]
    norm_num
  · rw [show parseTimeString ("-5") = some ⟨-5, 0⟩ from by decide,
      show (some (⟨-5, 0⟩ : Dec)).map Dec.val = some (Dec.val ⟨-5, 0⟩) from rfl,
      show Dec.val ⟨-5, 0⟩ = (-5 : ℚ) / 10 ^ 0 from rfl]
    norm_num
  · rw [show parseTimeString ("2:-30") = some ⟨90, 0⟩ from by decide,
      show (some (⟨90, 0⟩ : Dec)).map Dec.val = some (Dec.val ⟨90, 0⟩) from rfl,
      show Dec.val ⟨90, 0⟩ = (90 : ℚ) / 10 ^ 0 from rfl]
    norm_num
  · rw [show parseTimeString ("1e2") = some ⟨100, 0⟩ from by decide,
      show (some (⟨100, 0⟩ : Dec)).map Dec.val = some (Dec.val ⟨100, 0⟩) from rfl,
      show Dec.val ⟨100, 0⟩ = (100 : ℚ) / 10 ^ 0 from rfl]
    norm_num
  · intro a b x y hx hy hna hnb hns
    unfold parseTimeString
    rw [mk_data, goTrimL_eq_self hns, splitOnChar_append hna, splitOnChar_nosep hnb]
    dsimp only
    rw [hx, hy]
    dsimp only
    rw [show (some (Dec.add (Dec.scale 60 x) y)).map Dec.val
        = some (Dec.val (Dec.add (Dec.scale 60 x) y)) from rfl,
      Dec.val_add, Dec.val_scale]
    norm_num

/-- Witness for C10's weighted-sum clause at `"4:2"`. -/
theorem C10_no_time_validation_witness :
    (parseTimeString (String.mk (['4'] ++ ':' :: ['2']))).map Dec.val
      = some (60 * Dec.val ⟨4, 0⟩ + Dec.val ⟨2, 0⟩) :=
  C10_no_time_validation.2.2.2.2.2.1 ['4'] ['2'] ⟨4, 0⟩ ⟨2, 0⟩
    (by decide) (by decide) (by decide) (by decide) (by decide)

/-! ## Claim C6: carry propagation, never 100 hundredths -/

/-- C6: the hundredths component produced by the formatter always lies
in `[0, 100)` for non-negative totals (a hundredths value of 100 is
carried into seconds, minutes and hours instead of rendered), and in
particular the raw times `"119.999"` and `"1:59.999"` format to
exactly `"2:00.00"`. -/
theorem C6_hundredths_carry :
    roundAndFormatTime ("119.999") = some ("2:00.00")
    ∧ roundAndFormatTime ("1:59.999") = some ("2:00.00")
    ∧ ∀ t : Dec, 0 ≤ Dec.val t →
        0 ≤ (formatParts t).hundredths ∧ (formatParts t).hundredths < 100 := by
  refine ⟨by decide, by decide, fun t ht => ?_⟩
  rw [formatParts_spec t ht]
  exact ⟨Int.emod_nonneg _ (by norm_num), Int.emod_lt_of_pos _ (by norm_num)⟩

/-- Witness for C6 at the total `5` seconds. -/
theorem C6_hundredths_carry_witness :
    0 ≤ (formatParts ⟨5, 0⟩).hundredths ∧ (formatParts ⟨5, 0⟩).hundredths < 100 :=
  C6_hundredths_carry.2.2 ⟨5, 0⟩ (by simp [Dec.val])

/-! ## Claim C2: ceiling round-trip of formatting -/

/-- Counterexample to C2 as stated: the raw time `"-1.5"` is accepted
by `parseTimeString` (value `-1.5`), `roundAndFormatTime` renders it
as `"-1.-50"`, and that output does not re-parse at all. -/
theorem C2_roundtrip_counterexample :
    (parseTimeString ("-1.5")).map Dec.val = some (-(3 / 2) : ℚ)
    ∧ roundAndFormatTime ("-1.5") = some ("-1.-50")
    ∧ parseTimeString ("-1.-50") = none := by
  refine ⟨?_, by decide, by decide⟩
  rw [show parseTimeString ("-1.5") = some ⟨-15, 1⟩ from by decide,
    show (some (⟨-15, 1⟩ : Dec)).map Dec.val = some (Dec.val ⟨-15, 1⟩) from rfl,
    show Dec.val ⟨-15, 1⟩ = (-15 : ℚ) / 10 ^ 1 from rfl]
  norm_num

/-- C2 (amended to non-negative elapsed values): for every raw time
accepted by `parseTimeString` with non-negative elapsed-seconds value
`t`, `roundAndFormatTime` succeeds, its output re-parses, and the
re-parsed value lies in `[⌈t⌉₀.₀₁, ⌈t⌉₀.₀₁ + 0.01)` where `⌈·⌉₀.₀₁`
is the ceiling to the nearest hundredth — the rounding is upward,
never downward or to-nearest.  (For negative values the rendered
string can fail to re-parse, see the counterexample.) -/
theorem C2_roundtrip_ceiling (raw : String) (t : Dec)
    (hp : parseTimeString raw = some t) (h0 : 0 ≤ Dec.val t) :
    ∃ out, roundAndFormatTime raw = some out ∧
      ∃ r, parseTimeString out = some r ∧
        ceilHundredth (Dec.val t) ≤ Dec.val r ∧
        Dec.val r < ceilHundredth (Dec.val t) + 1 / 100 := by
  have hfmt : roundAndFormatTime raw = some (formatTotal t) := by
    unfold roundAndFormatTime
    rw [hp]
    rfl
  refine ⟨formatTotal t, hfmt, ?_⟩
  unfold formatTotal
  rw [formatParts_spec t h0]
  have hC0 : (0 : ℤ) ≤ ⌈Dec.val t * 100⌉ := Int.ceil_nonneg (by positivity)
  generalize hg : ⌈Dec.val t * 100⌉ = C at hC0 ⊢
  have hri0 : (0 : ℤ) ≤ C / 100 := Int.ediv_nonneg hC0 (by norm_num)
  obtain ⟨r, hr, hval⟩ := reparse_renderParts
    (show (0 : ℤ) ≤ C / 100 / 3600 from Int.ediv_nonneg hri0 (by norm_num))
    (show (0 : ℤ) ≤ C / 100 % 3600 / 60 from
      Int.ediv_nonneg (Int.emod_nonneg _ (by norm_num)) (by norm_num))
    (show (0 : ℤ) ≤ C / 100 % 60 from Int.emod_nonneg _ (by norm_num))
    (show (0 : ℤ) ≤ C % 100 from Int.emod_nonneg _ (by norm_num))
    (show C % 100 < 100 from Int.emod_lt_of_pos _ (by norm_num))
  refine ⟨r, hr, ?_⟩
  have eZ : 100 * ((3600 : ℤ) * (C / 100 / 3600) + 60 * (C / 100 % 3600 / 60) + C / 100 % 60)
      + C % 100 = C := by
    omega
  have key : Dec.val r = (C : ℚ) / 100 := by
    rw [hval]
    rw [show (3600 : ℚ) * ((C / 100 / 3600 : ℤ) : ℚ) + 60 * ((C / 100 % 3600 / 60 : ℤ) : ℚ)
        + ((C / 100 % 60 : ℤ) : ℚ) + ((C % 100 : ℤ) : ℚ) / 100
        = ((100 * ((3600 : ℤ) * (C / 100 / 3600) + 60 * (C / 100 % 3600 / 60) + C / 100 % 60)
          + C % 100 : ℤ) : ℚ) / 100 by push_cast; ring]
    rw [eZ]
  rw [key]
  unfold ceilHundredth
  rw [hg]
  constructor
  · exact le_refl _
  · norm_num

/-- Witness for C2 at the raw time `"7.005"`. -/
theorem C2_roundtrip_ceiling_witness :
    ∃ out, roundAndFormatTime ("7.005") = some out ∧
      ∃ r, parseTimeString out = some r ∧
        ceilHundredth (Dec.val ⟨7005, 3⟩) ≤ Dec.val r ∧
        Dec.val r < ceilHundredth (Dec.val ⟨7005, 3⟩) + 1 / 100 :=
  C2_roundtrip_ceiling ("7.005") ⟨7005, 3⟩ (by decide)
    (by rw [show Dec.val ⟨7005, 3⟩ = (7005 : ℚ) / 10 ^ 3 from rfl]; positivity)

/-- Witness for C4 at the row `["dnf", "7", "x", "Doe", "Jo", "KP", "dq"]`:
the place says DNF but the time says DQ, and DQ wins. -/
theorem C4_marker_rows_witness :
    (⟨"", "7", "Jo", "Doe", "KP", "DQ"⟩ : Competitor).place = ""
    ∧ (⟨"", "7", "Jo", "Doe", "KP", "DQ"⟩ : Competitor).time =
        markerOf (placeField (["dnf", "7", "x", "Doe", "Jo", "KP", "dq"]))
          (lifTimeField (["dnf", "7", "x", "Doe", "Jo", "KP", "dq"])) :=
  ((C4_marker_rows (["dnf", "7", "x", "Doe", "Jo", "KP", "dq"]) false
      (⟨"", "7", "Jo", "Doe", "KP", "DQ"⟩ : Competitor)).1 (by decide)).1 (by decide)

end LifViewer
